import Mathlib

/-!
Verification of the Landau audio looper (src/landau_sampler.py).

The Python source is shallowly embedded as executable Lean definitions:

* `lcm_list`, `partitionsL` (= `partitions(n, max_val)`), `partitionsD`
  (= `partitions(n)` with the default bound) and `landau` mirror the pure
  combinatorial core.  The Python generator recurses on `n - i`; here the
  same recursion is driven by a structural fuel argument (`partsF`), with
  `partsF_eq_partitionsL` showing the fuel never runs out, so
  `partitionsL` satisfies exactly the generator's recurrence
  (`partitionsL_succ`).
* `landau_audio_loop` is embedded as `landauAudioLoop` over buffers of
  rational samples (`Buf`): numpy float64 samples are modelled as exact
  rationals, so algebraic facts about accumulation and normalization are
  stated exactly.  Mono versus 2-D inputs are tracked by `Audio`, and the
  final `squeeze` by `AudioOut` (which includes the 0-dimensional result
  numpy produces for a single-sample single-channel buffer).
* `round(n_samples / sample_rate)` is Python banker's rounding of the
  exact quotient, computed in integer arithmetic by `roundHalfEven`.
* The `ValueError` raised for a partition whose sum is not `n` is the
  `Except.error` value `AudioErr.partitionMismatch partition sum n`,
  carrying exactly the data the Python message interpolates.
* The in-place `output[loop_start:loop_end] += segment` writes of the
  Python loop are mirrored twice: functionally by `loopAdd`/`mixParts`,
  and as explicit state passing on `MixState` (input buffer and output
  buffer) by `stepTile`/`loopTilesS`/`mixPartsS`, to settle the frame
  claim that the input buffer is never written.
-/

namespace LandauSampler

/-- `lcm_list(lst)`: `reduce(lcm, lst, 1)`, a left fold of `lcm` from 1. -/
def lcm_list (l : List ℕ) : ℕ := l.foldl Nat.lcm 1

/-- The candidate largest parts `range(k, 0, -1) = [k, k-1, ..., 1]`. -/
def descRange (k : ℕ) : List ℕ := (List.range k).reverse.map (· + 1)

/-- The recursion of `partitions(n, max_val)`, driven by a structural fuel
argument so that it computes by kernel reduction; the fuel only needs to be
at least `n` (`partsF_eq_partitionsL`). -/
def partsF : ℕ → ℕ → ℕ → List (List ℕ)
  | _, 0, _ => [[]]
  | 0, _ + 1, _ => []
  | fuel + 1, n + 1, m =>
      (descRange (min (n + 1) m)).flatMap
        (fun i => (partsF fuel (n + 1 - i) i).map (fun p => i :: p))

/-- `partitions(n, max_val)`: every integer partition of `n` with parts at
most `max_val`, parts in non-increasing order, in the order the Python
generator yields them. -/
def partitionsL (n m : ℕ) : List (List ℕ) := partsF n n m

/-- `partitions(n)` with the default bound `max_val = n`. -/
def partitionsD (n : ℕ) : List (List ℕ) := partitionsL n n

/-- One iteration of the search loop in `landau`: a candidate partition
replaces the best pair only when its LCM is strictly greater. -/
def stepB (b : ℕ × List ℕ) (p : List ℕ) : ℕ × List ℕ :=
  if b.1 < lcm_list p then (lcm_list p, p) else b

/-- `landau(n)`: fold the strictly-greater update over all partitions of
`n`, starting from `best_lcm = 0`, `best_partition = []`. -/
def landau (n : ℕ) : ℕ × List ℕ := (partitionsD n).foldl stepB (0, [])

/-- A 2-D sample buffer: `rows` samples of `cols` channels.  `data` is a
total function; only indices below `rows`/`cols` are meaningful. -/
structure Buf where
  rows : ℕ
  cols : ℕ
  data : ℕ → ℕ → ℚ

/-- The `audio` argument: a 1-D (mono) or 2-D numpy array. -/
inductive Audio where
  | mono : ℕ → (ℕ → ℚ) → Audio
  | multi : ℕ → ℕ → (ℕ → ℕ → ℚ) → Audio

/-- The returned array: `squeeze()` of a single-sample single-channel
buffer is 0-dimensional, hence the extra `scalar` case. -/
inductive AudioOut where
  | scalar : ℚ → AudioOut
  | mono : ℕ → (ℕ → ℚ) → AudioOut
  | multi : ℕ → ℕ → (ℕ → ℕ → ℚ) → AudioOut

/-- The `ValueError` of `landau_audio_loop`, carrying the offending
partition, its sum and `n`, exactly the data the message interpolates. -/
inductive AudioErr where
  | partitionMismatch : List ℕ → ℕ → ℕ → AudioErr

/-- Lines 68-69: `if audio.ndim == 1: audio = audio.reshape(-1, 1)`. -/
def toBuf : Audio → Buf
  | .mono len f => ⟨len, 1, fun t _ => f t⟩
  | .multi r c f => ⟨r, c, f⟩

/-- `ndim` of the input array. -/
def Audio.ndim : Audio → ℕ
  | .mono _ _ => 1
  | .multi _ _ _ => 2

/-- `ndim` of the returned array. -/
def AudioOut.ndim : AudioOut → ℕ
  | .scalar _ => 0
  | .mono _ _ => 1
  | .multi _ _ _ => 2

/-- Channel count of the returned array (a 0-D or 1-D array carries one
channel). -/
def AudioOut.channels : AudioOut → ℕ
  | .scalar _ => 1
  | .mono _ _ => 1
  | .multi _ c _ => c

/-- Samples per channel of the returned array. -/
def outLen : AudioOut → ℕ
  | .scalar _ => 1
  | .mono n _ => n
  | .multi r _ _ => r

/-- `int(round(ns / sr))` computed on the exact quotient: Python rounds
half to even.  (The Python source rounds the float64 quotient; the model
rounds the exact rational, which agrees whenever the quotient is exactly
representable, in particular whenever it is an integer.) -/
def roundHalfEven (ns sr : ℕ) : ℕ :=
  let q := ns / sr
  let r := ns % sr
  if 2 * r < sr then q
  else if sr < 2 * r then q + 1
  else if q % 2 = 0 then q else q + 1

/-- Line 72-73: `n = int(round(n_samples / sample_rate))`. -/
def nSeconds (audio : Audio) (sr : ℕ) : ℕ := roundHalfEven (toBuf audio).rows sr

/-- Lines 112-115: `for loop in range(k): output[loop*L : loop*L+L] += segment`,
as a function on the output samples.  `seg u c` is the segment's sample `u`
of channel `c` and `L` its length in samples. -/
def loopAdd (out seg : ℕ → ℕ → ℚ) (L : ℕ) : ℕ → (ℕ → ℕ → ℚ)
  | 0 => out
  | k + 1 => fun t c =>
      if k * L ≤ t ∧ t < k * L + L then loopAdd out seg L k t c + seg (t - k * L) c
      else loopAdd out seg L k t c

/-- Lines 99-117: the segmentation-and-loop pass.  `ad` is the (2-D) input
data, `nS` its row count; `pos` is `current_pos`.  The segment
`audio[pos : pos + part*sr]` is clamped at `nS` exactly as numpy slicing
clamps, and is looped `g / part` (floor division) times. -/
def mixParts (ad : ℕ → ℕ → ℚ) (nS sr g : ℕ) : List ℕ → ℕ → (ℕ → ℕ → ℚ) → (ℕ → ℕ → ℚ)
  | [], _, out => out
  | part :: rest, pos, out =>
      mixParts ad nS sr g rest (pos + part * sr)
        (loopAdd out (fun u c => ad (pos + u) c) (min (pos + part * sr) nS - pos) (g / part))

/-- Lines 95-117: the accumulated output buffer before normalization,
starting from `np.zeros((g * sr, cols))`. -/
def mixedOutput (b : Buf) (sr g : ℕ) (parts : List ℕ) : Buf :=
  ⟨g * sr, b.cols, mixParts b.data b.rows sr g parts 0 (fun _ _ => 0)⟩

/-- Line 120: `np.max(np.abs(output))`, the greatest absolute sample value
over all in-range indices (0 for an empty buffer). -/
def peak (b : Buf) : ℚ :=
  ((List.range b.rows).flatMap
    (fun t => (List.range b.cols).map (fun c => |b.data t c|))).foldl max 0

/-- Lines 120-122: divide every sample by the peak when it is positive,
otherwise leave the buffer unchanged. -/
def normalize (b : Buf) : Buf :=
  if 0 < peak b then ⟨b.rows, b.cols, fun t c => b.data t c / peak b⟩ else b

/-- Lines 125-126: `if n_channels == 1: output = output.squeeze()`.
numpy's `squeeze` drops every axis of size 1, so a `(1, 1)` buffer becomes
0-dimensional. -/
def squeezeOut (b : Buf) : AudioOut :=
  if b.cols = 1 then
    if b.rows = 1 then .scalar (b.data 0 0) else .mono b.rows (fun t => b.data t 0)
  else .multi b.rows b.cols b.data

/-- `landau_audio_loop(audio, sample_rate, partition)`: the full transform.
Returns `(output, g_n, partition_used)` or the `ValueError` for a supplied
partition whose sum is not `n`. -/
def landauAudioLoop (audio : Audio) (sr : ℕ) (partitionOpt : Option (List ℕ)) :
    Except AudioErr (AudioOut × ℕ × List ℕ) :=
  let b := toBuf audio
  let n := nSeconds audio sr
  match partitionOpt with
  | none =>
      let r := landau n
      .ok (squeezeOut (normalize (mixedOutput b sr r.1 r.2)), r.1, r.2)
  | some partition =>
      let g := lcm_list partition
      if partition.sum ≠ n then
        .error (.partitionMismatch partition partition.sum n)
      else
        .ok (squeezeOut (normalize (mixedOutput b sr g partition)), g, partition)

/-- The returned `g_n` of a `landau_audio_loop` call, when it returns. -/
def resG : Except AudioErr (AudioOut × ℕ × List ℕ) → Option ℕ
  | .ok (_, g, _) => some g
  | .error _ => none

/-- The returned output array of a `landau_audio_loop` call, when it
returns. -/
def resOut : Except AudioErr (AudioOut × ℕ × List ℕ) → Option AudioOut
  | .ok (o, _, _) => some o
  | .error _ => none

/-- The specification-side per-sample mix: the sum over the segments of
the segment's own sample at `t mod segment_length`, each segment tiled
from output sample 0.  `pos` is the running offset of the segment inside
the input. -/
def segSum (ad : ℕ → ℕ → ℚ) (sr : ℕ) : List ℕ → ℕ → ℕ → ℕ → ℚ
  | [], _, _, _ => 0
  | part :: rest, pos, t, c =>
      ad (pos + t % (part * sr)) c + segSum ad sr rest (pos + part * sr) t c

/-- The two-buffer state of the mixing loop: the input array `audio` and
the output accumulator. -/
structure MixState where
  input : Buf
  output : ℕ → ℕ → ℚ

/-- One `output[lo : lo + L] += segment` statement as a state update: the
write touches only the `output` component, reading the segment (a view of
the input at offset `pos`) from the current state. -/
def stepTile (s : MixState) (pos L lo : ℕ) : MixState :=
  { s with
    output := fun t c =>
      if lo ≤ t ∧ t < lo + L then s.output t c + s.input.data (pos + (t - lo)) c
      else s.output t c }

/-- Lines 112-115 as iterated state updates. -/
def loopTilesS (pos L : ℕ) : ℕ → MixState → MixState
  | 0, s => s
  | k + 1, s => stepTile (loopTilesS pos L k s) pos L (k * L)

/-- Lines 99-117 as iterated state updates over the partition. -/
def mixPartsS (sr g : ℕ) : List ℕ → ℕ → MixState → MixState
  | [], _, s => s
  | part :: rest, pos, s =>
      mixPartsS sr g rest (pos + part * sr)
        (loopTilesS pos (min (pos + part * sr) s.input.rows - pos) (g / part) s)

set_option maxRecDepth 10000

/-! Facts about `lcm_list`. -/

theorem foldl_lcm_init_dvd : ∀ (l : List ℕ) (a : ℕ), a ∣ l.foldl Nat.lcm a := by
  intro l
  induction l with
  | nil => intro a; simp
  | cons x l ih =>
      intro a
      exact dvd_trans (Nat.dvd_lcm_left a x) (ih (Nat.lcm a x))

theorem dvd_foldl_lcm : ∀ (l : List ℕ) (a x : ℕ), x ∈ l → x ∣ l.foldl Nat.lcm a := by
  intro l
  induction l with
  | nil => intro a x hx; simp at hx
  | cons y l ih =>
      intro a x hx
      rcases List.mem_cons.mp hx with h | h
      · subst h
        exact dvd_trans (Nat.dvd_lcm_right a x) (foldl_lcm_init_dvd l (Nat.lcm a x))
      · exact ih (Nat.lcm a y) x h

theorem foldl_lcm_pos :
    ∀ (l : List ℕ) (a : ℕ), 0 < a → (∀ x ∈ l, 0 < x) → 0 < l.foldl Nat.lcm a := by
  intro l
  induction l with
  | nil => intro a ha _; simpa using ha
  | cons x l ih =>
      intro a ha hl
      exact ih (Nat.lcm a x) (Nat.lcm_pos ha (hl x (by simp))) fun y hy => hl y (by simp [hy])

theorem lcm_list_pos (l : List ℕ) (h : ∀ x ∈ l, 0 < x) : 0 < lcm_list l :=
  foldl_lcm_pos l 1 (by decide) h

theorem dvd_lcm_list (l : List ℕ) (x : ℕ) (hx : x ∈ l) : x ∣ lcm_list l :=
  dvd_foldl_lcm l 1 x hx

theorem foldl_lcm_perm :
    ∀ {l₁ l₂ : List ℕ}, l₁.Perm l₂ → ∀ a, l₁.foldl Nat.lcm a = l₂.foldl Nat.lcm a := by
  intro l₁ l₂ h
  induction h with
  | nil => intro a; rfl
  | cons x _ ih => intro a; simpa using ih (Nat.lcm a x)
  | swap x y l =>
      intro a
      have : Nat.lcm (Nat.lcm a y) x = Nat.lcm (Nat.lcm a x) y := by
        rw [Nat.lcm_assoc, Nat.lcm_comm y x, ← Nat.lcm_assoc]
      simp [this]
  | trans _ _ ih₁ ih₂ => intro a; rw [ih₁ a, ih₂ a]

theorem lcm_list_perm {l₁ l₂ : List ℕ} (h : l₁.Perm l₂) : lcm_list l₁ = lcm_list l₂ :=
  foldl_lcm_perm h 1

/-! Facts about `descRange` and the enumerator. -/

theorem mem_descRange {i k : ℕ} : i ∈ descRange k ↔ 1 ≤ i ∧ i ≤ k := by
  simp only [descRange, List.mem_map, List.mem_reverse, List.mem_range]
  constructor
  · rintro ⟨j, hj, rfl⟩; omega
  · rintro ⟨h1, h2⟩; exact ⟨i - 1, by omega, by omega⟩

theorem nodup_descRange (k : ℕ) : (descRange k).Nodup := by
  refine List.Nodup.map (fun a b h => by omega) ?_
  exact List.nodup_reverse.mpr (List.nodup_range k)

theorem partsF_mono :
    ∀ (f₁ f₂ n m : ℕ), n ≤ f₁ → n ≤ f₂ → partsF f₁ n m = partsF f₂ n m := by
  intro f₁
  induction f₁ with
  | zero =>
      intro f₂ n m h₁ _
      interval_cases n
      cases f₂ <;> simp [partsF]
  | succ f ih =>
      intro f₂ n m h₁ h₂
      match n, f₂ with
      | 0, f₂ => cases f₂ <;> simp [partsF]
      | k + 1, f₂ + 1 =>
          simp only [partsF]
          refine List.flatMap_congr fun i hi => ?_
          have hik : 1 ≤ i ∧ i ≤ min (k + 1) m := mem_descRange.mp hi
          rw [ih f₂ (k + 1 - i) i (by omega) (by omega)]

theorem partsF_eq_partitionsL (f n m : ℕ) (h : n ≤ f) :
    partsF f n m = partitionsL n m :=
  partsF_mono f n n m h le_rfl

theorem partitionsL_zero (m : ℕ) : partitionsL 0 m = [[]] := rfl

theorem partitionsL_succ (n m : ℕ) :
    partitionsL (n + 1) m =
      (descRange (min (n + 1) m)).flatMap
        (fun i => (partitionsL (n + 1 - i) i).map (fun p => i :: p)) := by
  show partsF (n + 1) (n + 1) m = _
  simp only [partsF]
  refine List.flatMap_congr fun i hi => ?_
  have hik : 1 ≤ i ∧ i ≤ min (n + 1) m := mem_descRange.mp hi
  rw [partsF_eq_partitionsL n (n + 1 - i) i (by omega)]

theorem partitions_sound :
    ∀ (n m : ℕ) (p : List ℕ), p ∈ partitionsL n m →
      p.sum = n ∧ (∀ x ∈ p, 1 ≤ x ∧ x ≤ m) ∧ List.Sorted (· ≥ ·) p := by
  intro n
  induction n using Nat.strong_induction_on with
  | _ n ih =>
      intro m p hp
      match n with
      | 0 =>
          rw [partitionsL_zero] at hp
          simp at hp
          subst hp
          refine ⟨rfl, by simp, by simp⟩
      | k + 1 =>
          rw [partitionsL_succ] at hp
          obtain ⟨i, hi, hpi⟩ := List.mem_flatMap.mp hp
          obtain ⟨q, hq, rfl⟩ := List.mem_map.mp hpi
          have hik : 1 ≤ i ∧ i ≤ min (k + 1) m := mem_descRange.mp hi
          obtain ⟨hqsum, hqmem, hqsorted⟩ := ih (k + 1 - i) (by omega) i q hq
          refine ⟨by simp [hqsum]; omega, ?_, ?_⟩
          · intro x hx
            rcases List.mem_cons.mp hx with h | h
            · subst h; omega
            · have := hqmem x h; omega
          · rw [List.sorted_cons]
            exact ⟨fun b hb => (hqmem b hb).2, hqsorted⟩

theorem partitions_complete :
    ∀ (p : List ℕ) (n m : ℕ), p.sum = n → (∀ x ∈ p, 1 ≤ x ∧ x ≤ m) →
      List.Sorted (· ≥ ·) p → p ∈ partitionsL n m := by
  intro p
  induction p with
  | nil =>
      intro n m hsum _ _
      simp at hsum
      subst hsum
      simp [partitionsL_zero]
  | cons i q ih =>
      intro n m hsum hmem hsorted
      have hi : 1 ≤ i ∧ i ≤ m := hmem i (by simp)
      have hqsum : i + q.sum = n := by simpa using hsum
      match n, hqsum with
      | 0, hqsum => exact absurd hqsum (by omega)
      | k + 1, hqsum =>
          rw [partitionsL_succ]
          refine List.mem_flatMap.mpr ⟨i, mem_descRange.mpr ⟨hi.1, by omega⟩, ?_⟩
          refine List.mem_map.mpr ⟨q, ?_, rfl⟩
          have hsc := List.sorted_cons.mp hsorted
          exact ih (k + 1 - i) i (by omega)
            (fun x hx => ⟨(hmem x (by simp [hx])).1, hsc.1 x hx⟩) hsc.2

theorem partitions_nodup : ∀ (n m : ℕ), (partitionsL n m).Nodup := by
  intro n
  induction n using Nat.strong_induction_on with
  | _ n ih =>
      intro m
      match n with
      | 0 => rw [partitionsL_zero]; simp
      | k + 1 =>
          rw [partitionsL_succ]
          rw [List.nodup_flatMap]
          constructor
          · intro i hi
            have hik : 1 ≤ i ∧ i ≤ min (k + 1) m := mem_descRange.mp hi
            exact List.Nodup.map (fun a b h => by simpa using h)
              (ih (k + 1 - i) (by omega) i)
          · refine List.Pairwise.imp ?_ (nodup_descRange (min (k + 1) m))
            intro a b hab p hpa hpb
            obtain ⟨q1, _, hq1⟩ := List.mem_map.mp hpa
            obtain ⟨q2, _, hq2⟩ := List.mem_map.mp hpb
            rw [← hq1] at hq2
            injection hq2 with h1 _
            exact hab h1.symm

/-! Facts about the search fold of `landau`. -/

theorem foldl_stepB :
    ∀ (l : List (List ℕ)) (b : ℕ × List ℕ),
      (l.foldl stepB b = b ∧ ∀ p ∈ l, lcm_list p ≤ b.1) ∨
      (b.1 < (l.foldl stepB b).1 ∧
       (l.foldl stepB b).1 = lcm_list (l.foldl stepB b).2 ∧
       (l.foldl stepB b).2 ∈ l ∧
       l.find? (fun p => decide ((l.foldl stepB b).1 ≤ lcm_list p)) =
         some (l.foldl stepB b).2 ∧
       ∀ p ∈ l, lcm_list p ≤ (l.foldl stepB b).1) := by
  intro l
  induction l with
  | nil => intro b; left; exact ⟨rfl, by simp⟩
  | cons p rest ih =>
      intro b
      by_cases hlt : b.1 < lcm_list p
      · have hb' : stepB b p = (lcm_list p, p) := by simp [stepB, hlt]
        have hfold : (p :: rest).foldl stepB b = rest.foldl stepB (lcm_list p, p) := by
          simp [List.foldl_cons, hb']
        rcases ih (lcm_list p, p) with ⟨heq, hbound⟩ | ⟨hlt', heq', hmem', hfind', hbound'⟩
        · right
          rw [hfold, heq]
          refine ⟨hlt, rfl, by simp, ?_, ?_⟩
          · exact List.find?_cons_of_pos rest (by simp)
          · intro q hq
            rcases List.mem_cons.mp hq with h | h
            · subst h; exact le_rfl
            · exact hbound q h
        · right
          rw [hfold]
          refine ⟨lt_trans hlt hlt', heq', by simp [List.mem_cons, hmem'], ?_, ?_⟩
          · rw [List.find?_cons_of_neg rest (by simp; exact hlt')]
            exact hfind'
          · intro q hq
            rcases List.mem_cons.mp hq with h | h
            · subst h; exact le_of_lt hlt'
            · exact hbound' q h
      · have hb' : stepB b p = b := by simp [stepB, hlt]
        have hfold : (p :: rest).foldl stepB b = rest.foldl stepB b := by
          simp [List.foldl_cons, hb']
        push_neg at hlt
        rcases ih b with ⟨heq, hbound⟩ | ⟨hlt', heq', hmem', hfind', hbound'⟩
        · left
          rw [hfold, heq]
          refine ⟨rfl, ?_⟩
          intro q hq
          rcases List.mem_cons.mp hq with h | h
          · subst h; exact hlt
          · exact hbound q h
        · right
          rw [hfold]
          refine ⟨hlt', heq', by simp [List.mem_cons, hmem'], ?_, ?_⟩
          · rw [List.find?_cons_of_neg rest (by simp; exact lt_of_le_of_lt hlt hlt')]
            exact hfind'
          · intro q hq
            rcases List.mem_cons.mp hq with h | h
            · subst h; exact le_of_lt (lt_of_le_of_lt hlt hlt')
            · exact hbound' q h

theorem sum_replicate_one (n : ℕ) : (List.replicate n 1).sum = n := by
  induction n with
  | zero => rfl
  | succ k ih => simp [List.replicate_succ, ih]; omega

theorem replicate_one_mem_partitionsD (n : ℕ) : List.replicate n 1 ∈ partitionsD n := by
  refine partitions_complete (List.replicate n 1) n n (sum_replicate_one n) ?_ ?_
  · intro x hx
    obtain ⟨hn, rfl⟩ := List.mem_replicate.mp hx
    exact ⟨le_rfl, by omega⟩
  · exact List.pairwise_replicate.mpr (Or.inr le_rfl)

theorem landau_spec (n : ℕ) :
    (landau n).2 ∈ partitionsD n ∧
    (landau n).1 = lcm_list (landau n).2 ∧
    (∀ p ∈ partitionsD n, lcm_list p ≤ (landau n).1) ∧
    (partitionsD n).find? (fun p => decide ((landau n).1 ≤ lcm_list p)) =
      some (landau n).2 := by
  have hpos : 0 < lcm_list (List.replicate n 1) := by
    refine lcm_list_pos _ ?_
    intro x hx
    obtain ⟨_, rfl⟩ := List.mem_replicate.mp hx
    exact one_pos
  rcases foldl_stepB (partitionsD n) (0, []) with ⟨_, hbound⟩ | ⟨_, heq, hmem, hfind, hbound⟩
  · exact absurd (hbound _ (replicate_one_mem_partitionsD n)) (by omega)
  · exact ⟨hmem, heq, hbound, hfind⟩

theorem mem_le_sum : ∀ (l : List ℕ), ∀ x ∈ l, x ≤ l.sum := by
  intro l
  induction l with
  | nil => simp
  | cons y l ih =>
      intro x hx
      rcases List.mem_cons.mp hx with h | h
      · subst h; simp
      · have := ih x h; simp; omega

theorem lcm_list_le_landau (n : ℕ) (q : List ℕ) (hsum : q.sum = n)
    (hpos : ∀ x ∈ q, 0 < x) : lcm_list q ≤ (landau n).1 := by
  have hperm : (List.insertionSort (· ≥ ·) q).Perm q := List.perm_insertionSort _ q
  have hsorted : List.Sorted (· ≥ ·) (List.insertionSort (· ≥ ·) q) :=
    List.sorted_insertionSort _ q
  have hsum' : (List.insertionSort (· ≥ ·) q).sum = n := by rw [hperm.sum_eq, hsum]
  have hmem : ∀ x ∈ List.insertionSort (· ≥ ·) q, 1 ≤ x ∧ x ≤ n := by
    intro x hx
    have hxq : x ∈ q := hperm.mem_iff.mp hx
    exact ⟨hpos x hxq, hsum ▸ mem_le_sum q x hxq⟩
  have hin : List.insertionSort (· ≥ ·) q ∈ partitionsD n :=
    partitions_complete _ n n hsum' hmem hsorted
  calc lcm_list q = lcm_list (List.insertionSort (· ≥ ·) q) := (lcm_list_perm hperm).symm
    _ ≤ (landau n).1 := (landau_spec n).2.2.1 _ hin

/-! Facts about the mixing loop. -/

theorem loopAdd_apply (out seg : ℕ → ℕ → ℚ) (L : ℕ) (hL : 0 < L) :
    ∀ (k t c : ℕ),
      loopAdd out seg L k t c = out t c + (if t < k * L then seg (t % L) c else 0) := by
  intro k
  induction k with
  | zero => intro t c; simp [loopAdd]
  | succ k ih =>
      intro t c
      simp only [loopAdd, Nat.succ_mul]
      by_cases hw : k * L ≤ t ∧ t < k * L + L
      · rw [if_pos hw, ih t c, if_neg (by omega), if_pos (by omega)]
        have hmod : t % L = t - k * L := by
          have h2 : (t - k * L) + k * L = t := by omega
          calc t % L = ((t - k * L) + k * L) % L := by rw [h2]
            _ = (t - k * L) % L := Nat.add_mul_mod_self_right _ k L
            _ = t - k * L := Nat.mod_eq_of_lt (by omega)
        rw [hmod]
        ring
      · rw [if_neg hw, ih t c]
        by_cases h1 : t < k * L
        · rw [if_pos h1, if_pos (by omega)]
        · rw [if_neg h1, if_neg (by omega)]

theorem mixParts_apply (ad : ℕ → ℕ → ℚ) (nS sr g : ℕ) (hsr : 0 < sr) :
    ∀ (parts : List ℕ) (pos : ℕ) (out : ℕ → ℕ → ℚ) (t c : ℕ),
      (∀ x ∈ parts, 0 < x ∧ x ∣ g) → pos + parts.sum * sr ≤ nS → t < g * sr →
      mixParts ad nS sr g parts pos out t c = out t c + segSum ad sr parts pos t c := by
  intro parts
  induction parts with
  | nil => intro pos out t c _ _ _; simp [mixParts, segSum]
  | cons part rest ih =>
      intro pos out t c hparts hbound ht
      obtain ⟨hpos, hdvd⟩ := hparts part (by simp)
      rw [List.sum_cons, Nat.add_mul] at hbound
      have hle : pos + part * sr ≤ nS := by omega
      have hL : min (pos + part * sr) nS - pos = part * sr := by omega
      have hLpos : 0 < part * sr := Nat.mul_pos hpos hsr
      have hcov : (g / part) * (part * sr) = g * sr := by
        rw [← Nat.mul_assoc, Nat.div_mul_cancel hdvd]
      simp only [mixParts]
      rw [ih (pos + part * sr) _ t c (fun x hx => hparts x (by simp [hx]))
        (by omega) ht]
      rw [hL, loopAdd_apply _ _ _ hLpos, if_pos (by rw [hcov]; exact ht)]
      simp only [segSum]
      ring

/-! Facts about `peak` and `normalize`. -/

theorem foldl_max_init_le : ∀ (l : List ℚ) (a : ℚ), a ≤ l.foldl max a := by
  intro l
  induction l with
  | nil => intro a; exact le_rfl
  | cons x l ih => intro a; exact le_trans (le_max_left a x) (ih (max a x))

theorem le_foldl_max : ∀ (l : List ℚ) (a x : ℚ), x ∈ l → x ≤ l.foldl max a := by
  intro l
  induction l with
  | nil => intro a x hx; simp at hx
  | cons y l ih =>
      intro a x hx
      rcases List.mem_cons.mp hx with h | h
      · subst h; exact le_trans (le_max_right a x) (foldl_max_init_le l (max a x))
      · exact ih (max a y) x h

theorem foldl_max_mem : ∀ (l : List ℚ) (a : ℚ), l.foldl max a = a ∨ l.foldl max a ∈ l := by
  intro l
  induction l with
  | nil => intro a; left; rfl
  | cons x l ih =>
      intro a
      rcases ih (max a x) with h | h
      · rcases max_cases a x with ⟨hm, _⟩ | ⟨hm, _⟩
        · left; rw [List.foldl_cons, h, hm]
        · right; rw [List.foldl_cons, h, hm]; simp
      · right; simp [List.foldl_cons, h]

theorem foldl_max_all_zero : ∀ (l : List ℚ), (∀ x ∈ l, x = 0) → l.foldl max 0 = 0 := by
  intro l
  induction l with
  | nil => intro _; rfl
  | cons x l ih =>
      intro h
      have hx : x = 0 := h x (by simp)
      rw [List.foldl_cons, hx, max_self]
      exact ih fun y hy => h y (by simp [hy])

theorem peak_nonneg (b : Buf) : 0 ≤ peak b := foldl_max_init_le _ 0

theorem le_peak (b : Buf) (t c : ℕ) (ht : t < b.rows) (hc : c < b.cols) :
    |b.data t c| ≤ peak b := by
  refine le_foldl_max _ 0 _ ?_
  refine List.mem_flatMap.mpr ⟨t, List.mem_range.mpr ht, ?_⟩
  exact List.mem_map.mpr ⟨c, List.mem_range.mpr hc, rfl⟩

theorem peak_attained (b : Buf) :
    peak b = 0 ∨ ∃ t c, t < b.rows ∧ c < b.cols ∧ |b.data t c| = peak b := by
  rcases foldl_max_mem _ 0 with h | h
  · left; exact h
  · right
    obtain ⟨t, ht, hmem⟩ := List.mem_flatMap.mp h
    obtain ⟨c, hc, heq⟩ := List.mem_map.mp hmem
    exact ⟨t, c, List.mem_range.mp ht, List.mem_range.mp hc, heq⟩

theorem peak_zero_of_silent (b : Buf)
    (h : ∀ t c, t < b.rows → c < b.cols → b.data t c = 0) : peak b = 0 := by
  refine foldl_max_all_zero _ ?_
  intro x hx
  obtain ⟨t, ht, hmem⟩ := List.mem_flatMap.mp hx
  obtain ⟨c, hc, heq⟩ := List.mem_map.mp hmem
  rw [← heq, h t c (List.mem_range.mp ht) (List.mem_range.mp hc), abs_zero]

theorem foldl_max_div : ∀ (l : List ℚ) (a m : ℚ), 0 < m →
    (l.map (· / m)).foldl max (a / m) = (l.foldl max a) / m := by
  intro l
  induction l with
  | nil => intro a m _; rfl
  | cons x l ih =>
      intro a m hm
      rw [List.map_cons, List.foldl_cons, List.foldl_cons,
        max_div_div_right (le_of_lt hm) a x, ih (max a x) m hm]

theorem normalize_rows (b : Buf) : (normalize b).rows = b.rows := by
  unfold normalize; split <;> rfl

theorem normalize_cols (b : Buf) : (normalize b).cols = b.cols := by
  unfold normalize; split <;> rfl

theorem normalize_apply (b : Buf) (h : 0 < peak b) (t c : ℕ) :
    (normalize b).data t c = b.data t c / peak b := by
  unfold normalize
  rw [if_pos h]

theorem normalize_of_peak_zero (b : Buf) (h : peak b = 0) : normalize b = b := by
  unfold normalize
  rw [if_neg (by rw [h]; exact lt_irrefl 0)]

theorem peak_normalize (b : Buf) (h : 0 < peak b) : peak (normalize b) = 1 := by
  have hdata : ∀ t c, (normalize b).data t c = b.data t c / peak b := normalize_apply b h
  have habs : ∀ t c, |(normalize b).data t c| = |b.data t c| / peak b := by
    intro t c
    rw [hdata t c, abs_div, abs_of_pos h]
  have hlist :
      (List.range (normalize b).rows).flatMap
          (fun t => (List.range (normalize b).cols).map
            (fun c => |(normalize b).data t c|)) =
        ((List.range b.rows).flatMap
          (fun t => (List.range b.cols).map (fun c => |b.data t c|))).map
            (· / peak b) := by
    rw [normalize_rows, normalize_cols, List.map_flatMap]
    refine List.flatMap_congr fun t _ => ?_
    rw [List.map_map]
    refine List.map_congr_left fun c _ => ?_
    exact habs t c
  show _ = 1
  unfold peak
  rw [hlist]
  have hz : (0 : ℚ) = 0 / peak b := (zero_div _).symm
  rw [hz, foldl_max_div _ 0 (peak b) h]
  show peak b / peak b = 1
  exact div_self (ne_of_gt h)

/-! Facts about shapes and rounding. -/

theorem outLen_squeezeOut (b : Buf) : outLen (squeezeOut b) = b.rows := by
  unfold squeezeOut
  split
  · split
    · rename_i h1
      simp [outLen, h1]
    · rfl
  · rfl

theorem channels_squeezeOut (b : Buf) (h : b.cols = 1) :
    AudioOut.channels (squeezeOut b) = 1 := by
  unfold squeezeOut
  rw [if_pos h]
  split <;> rfl

theorem ndim_squeezeOut_one (b : Buf) (h : b.cols = 1) :
    AudioOut.ndim (squeezeOut b) = if b.rows = 1 then 0 else 1 := by
  unfold squeezeOut
  rw [if_pos h]
  split <;> rfl

theorem squeezeOut_of_cols_ne_one (b : Buf) (h : ¬ b.cols = 1) :
    squeezeOut b = .multi b.rows b.cols b.data := by
  unfold squeezeOut
  rw [if_neg h]

theorem roundHalfEven_mul (k sr : ℕ) (h : 0 < sr) : roundHalfEven (k * sr) sr = k := by
  unfold roundHalfEven
  rw [Nat.mul_mod_left, Nat.mul_div_cancel _ h]
  simp [h]

/-! Facts about the state-passing form of the mixing loop. -/

theorem loopTilesS_input (pos L : ℕ) :
    ∀ (k : ℕ) (s : MixState), (loopTilesS pos L k s).input = s.input := by
  intro k
  induction k with
  | zero => intro s; rfl
  | succ k ih => intro s; simp [loopTilesS, stepTile, ih]

theorem mixPartsS_input (sr g : ℕ) :
    ∀ (parts : List ℕ) (pos : ℕ) (s : MixState),
      (mixPartsS sr g parts pos s).input = s.input := by
  intro parts
  induction parts with
  | nil => intro pos s; rfl
  | cons part rest ih =>
      intro pos s
      simp only [mixPartsS]
      rw [ih, loopTilesS_input]

theorem loopTilesS_output (pos L : ℕ) :
    ∀ (k : ℕ) (s : MixState),
      (loopTilesS pos L k s).output =
        loopAdd s.output (fun u c => s.input.data (pos + u) c) L k := by
  intro k
  induction k with
  | zero => intro s; rfl
  | succ k ih =>
      intro s
      funext t c
      simp only [loopTilesS, stepTile, loopAdd, ih, loopTilesS_input]

theorem mixPartsS_output (sr g : ℕ) :
    ∀ (parts : List ℕ) (pos : ℕ) (s : MixState),
      (mixPartsS sr g parts pos s).output =
        mixParts s.input.data s.input.rows sr g parts pos s.output := by
  intro parts
  induction parts with
  | nil => intro pos s; rfl
  | cons part rest ih =>
      intro pos s
      simp only [mixPartsS, mixParts]
      rw [ih, loopTilesS_input, loopTilesS_output]

/-- C1: for every non-negative integer `n`, `landau n` returns a pair
`(g, p)` such that `p` is a partition of `n` (positive parts summing to
`n`), `g = lcm_list p`, and no integer partition of `n` has an LCM
strictly larger than `g`. -/
theorem landau_correct (n : ℕ) :
    (landau n).2.sum = n ∧
    (∀ x ∈ (landau n).2, 0 < x) ∧
    (landau n).1 = lcm_list (landau n).2 ∧
    ∀ q : List ℕ, q.sum = n → (∀ x ∈ q, 0 < x) → lcm_list q ≤ (landau n).1 := by
  obtain ⟨hmem, heq, _, _⟩ := landau_spec n
  obtain ⟨hsum, hparts, _⟩ := partitions_sound n n _ hmem
  exact ⟨hsum, fun x hx => (hparts x hx).1, heq,
    fun q hq hqpos => lcm_list_le_landau n q hq hqpos⟩

/-- Witness for C1 at `n = 5` and the competing partition `[5]`. -/
theorem landau_correct_witness :
    (landau 5).2.sum = 5 ∧ (landau 5).1 = lcm_list (landau 5).2 ∧
    [5].sum = 5 ∧ (∀ x ∈ [5], 0 < x) ∧ lcm_list [5] ≤ (landau 5).1 :=
  ⟨(landau_correct 5).1, (landau_correct 5).2.2.1, by decide, by decide,
    (landau_correct 5).2.2.2 [5] (by decide) (by decide)⟩

/-- C2: `landau` reproduces the known reference values for small `n`, and
at `n = 6` it attains the value 6 with a partition achieving 6. -/
theorem landau_reference_values :
    landau 0 = (1, []) ∧ landau 1 = (1, [1]) ∧ landau 2 = (2, [2]) ∧
    landau 3 = (3, [3]) ∧ landau 4 = (4, [4]) ∧ landau 5 = (6, [3, 2]) ∧
    landau 7 = (12, [4, 3]) ∧ landau 8 = (15, [5, 3]) ∧ landau 9 = (20, [5, 4]) ∧
    landau 10 = (30, [5, 3, 2]) ∧ landau 12 = (60, [5, 4, 3]) ∧
    (landau 6).1 = 6 ∧ lcm_list (landau 6).2 = 6 ∧ (landau 6).2.sum = 6 := by
  decide

/-- C3: `partitionsL n m` enumerates exactly the partitions of `n` with
positive parts at most `m`, in non-increasing order, without repetition,
and `partitions 0` (with the default bound) yields only the empty
partition. -/
theorem partitions_enumeration (n m : ℕ) (p : List ℕ) :
    (p ∈ partitionsL n m ↔
      p.sum = n ∧ (∀ x ∈ p, 0 < x ∧ x ≤ m) ∧ List.Sorted (· ≥ ·) p) ∧
    (partitionsL n m).Nodup ∧ partitionsD 0 = [[]] := by
  refine ⟨⟨fun h => partitions_sound n m p h, fun h =>
    partitions_complete p n m h.1 h.2.1 h.2.2⟩, partitions_nodup n m, rfl⟩

/-- C4: in the search only a strictly greater LCM replaces the retained
best, so `landau n` returns the first partition in enumeration order
achieving the maximal LCM; in particular at `n = 6` it returns `[6]`
even though the later `[3, 2, 1]` also achieves the maximum 6. -/
theorem landau_keeps_first_maximum (n : ℕ) :
    (partitionsD n).find? (fun p => decide ((landau n).1 ≤ lcm_list p)) =
      some (landau n).2 ∧
    landau 6 = (6, [6]) ∧ [3, 2, 1] ∈ partitionsD 6 ∧
    lcm_list [3, 2, 1] = (landau 6).1 := by
  exact ⟨(landau_spec n).2.2.2, by decide, by decide, by decide⟩

/-- C5: for a valid supplied partition (positive parts summing to the
rounded duration `n`) and a positive sample rate, the returned output
array has exactly `g_n * sample_rate` samples per channel; and, when the
input holds exactly `n * sample_rate` samples, each pre-normalization
output sample at index `t`, channel `c` is the sum over all segments of
the segment's sample at `t mod segment_length`, i.e. every segment is
tiled from output sample 0 and added into the shared buffer. -/
theorem audio_loop_length_and_mix (audio : Audio) (sr : ℕ) (partition : List ℕ)
    (t c : ℕ) (hsr : 0 < sr) (hpos : ∀ x ∈ partition, 0 < x)
    (hsum : partition.sum = nSeconds audio sr) :
    Option.map outLen (resOut (landauAudioLoop audio sr (some partition))) =
      some (lcm_list partition * sr) ∧
    ((toBuf audio).rows = partition.sum * sr → t < lcm_list partition * sr →
      (mixedOutput (toBuf audio) sr (lcm_list partition) partition).data t c =
        segSum (toBuf audio).data sr partition 0 t c) := by
  constructor
  · simp only [landauAudioLoop]
    rw [if_neg (not_not_intro hsum)]
    simp only [resOut, Option.map]
    rw [outLen_squeezeOut, normalize_rows]
    rfl
  · intro hrows ht
    show mixParts (toBuf audio).data (toBuf audio).rows sr (lcm_list partition)
      partition 0 (fun _ _ => 0) t c = _
    rw [mixParts_apply _ _ _ _ hsr partition 0 _ t c
      (fun x hx => ⟨hpos x hx, dvd_lcm_list partition x hx⟩)
      (by rw [hrows]; omega) ht]
    exact zero_add _

/-- Witness for C5: a two-second mono buffer of ones at sample rate 1 with
the supplied partition `[2]`. -/
theorem audio_loop_length_and_mix_witness :
    (0 : ℕ) < 1 ∧ (∀ x ∈ [2], 0 < x) ∧
    [2].sum = nSeconds (Audio.mono 2 (fun _ => 1)) 1 ∧
    (Option.map outLen
        (resOut (landauAudioLoop (Audio.mono 2 (fun _ => 1)) 1 (some [2]))) =
      some (lcm_list [2] * 1) ∧
     ((toBuf (Audio.mono 2 (fun _ => 1))).rows = [2].sum * 1 →
      1 < lcm_list [2] * 1 →
      (mixedOutput (toBuf (Audio.mono 2 (fun _ => 1))) 1 (lcm_list [2]) [2]).data 1 0 =
        segSum (toBuf (Audio.mono 2 (fun _ => 1))).data 1 [2] 0 1 0)) :=
  ⟨by decide, by decide, by decide,
    audio_loop_length_and_mix (Audio.mono 2 (fun _ => 1)) 1 [2] 1 0
      (by decide) (by decide) (by decide)⟩

/-- C6: the normalization step computes the global peak absolute sample
value over all channels; a strictly positive peak divides every sample and
makes the resulting peak exactly 1; a zero peak (entirely silent buffer)
leaves the buffer unchanged, so a silent input stays silent. -/
theorem normalize_peak_behavior (b : Buf) (t c : ℕ) :
    (t < b.rows → c < b.cols → |b.data t c| ≤ peak b) ∧
    (peak b = 0 ∨ ∃ t2 c2, t2 < b.rows ∧ c2 < b.cols ∧ |b.data t2 c2| = peak b) ∧
    (0 < peak b →
      (normalize b).data t c = b.data t c / peak b ∧ peak (normalize b) = 1) ∧
    (peak b = 0 → normalize b = b) ∧
    ((∀ u d, u < b.rows → d < b.cols → b.data u d = 0) →
      normalize b = b ∧
        ∀ u2 c2, u2 < b.rows → c2 < b.cols → (normalize b).data u2 c2 = 0) := by
  refine ⟨le_peak b t c, peak_attained b, ?_, normalize_of_peak_zero b, ?_⟩
  · intro h
    exact ⟨normalize_apply b h t c, peak_normalize b h⟩
  · intro h
    have hz : peak b = 0 := peak_zero_of_silent b h
    have he : normalize b = b := normalize_of_peak_zero b hz
    refine ⟨he, ?_⟩
    intro u2 c2 hu hc
    rw [he]
    exact h u2 c2 hu hc

/-- C7: a supplied partition whose sum is not the rounded duration `n`
makes `landau_audio_loop` fail with the domain error carrying the
partition, its sum and `n` (no output is produced); a matching sum makes
it return `g_n = lcm_list partition` directly; and supplying the search's
own optimal partition yields the same `g_n` as the automatic search. -/
theorem supplied_partition_validation (audio : Audio) (sr : ℕ) (partition : List ℕ) :
    (partition.sum ≠ nSeconds audio sr →
      landauAudioLoop audio sr (some partition) =
        .error (.partitionMismatch partition partition.sum (nSeconds audio sr))) ∧
    (partition.sum = nSeconds audio sr →
      resG (landauAudioLoop audio sr (some partition)) = some (lcm_list partition)) ∧
    resG (landauAudioLoop audio sr (some (landau (nSeconds audio sr)).2)) =
      resG (landauAudioLoop audio sr none) := by
  refine ⟨?_, ?_, ?_⟩
  · intro h
    simp only [landauAudioLoop]
    rw [if_pos h]
  · intro h
    simp only [landauAudioLoop]
    rw [if_neg (not_not_intro h)]
    rfl
  · have hsum : (landau (nSeconds audio sr)).2.sum = nSeconds audio sr :=
      (partitions_sound (nSeconds audio sr) (nSeconds audio sr) _
        (landau_spec (nSeconds audio sr)).1).1
    have heq : (landau (nSeconds audio sr)).1 =
        lcm_list (landau (nSeconds audio sr)).2 :=
      (landau_spec (nSeconds audio sr)).2.1
    simp only [landauAudioLoop]
    rw [if_neg (not_not_intro hsum)]
    simp [resG, heq]

/-- C9: for a partition of strictly positive parts with `g` its LCM
(whether found by the search or supplied), the per-segment loop count
`g / part` involves no division by zero and is an exact division:
`g / part * part = g`, so a non-integral loop count is impossible. -/
theorem loop_count_exact (partition : List ℕ) (g part : ℕ)
    (hpos : ∀ x ∈ partition, 0 < x) (hg : g = lcm_list partition)
    (hmem : part ∈ partition) :
    part ≠ 0 ∧ g / part * part = g := by
  have h1 : 0 < part := hpos part hmem
  have h2 : part ∣ g := hg ▸ dvd_lcm_list partition part hmem
  exact ⟨Nat.pos_iff_ne_zero.mp h1, Nat.div_mul_cancel h2⟩

/-- Witness for C9 at the partition `[3, 2]` of 5, whose LCM is 6. -/
theorem loop_count_exact_witness :
    (∀ x ∈ [3, 2], 0 < x) ∧ 6 = lcm_list [3, 2] ∧ 3 ∈ [3, 2] ∧
    3 ≠ 0 ∧ 6 / 3 * 3 = 6 :=
  ⟨by decide, by decide, by decide,
    loop_count_exact [3, 2] 6 3 (by decide) (by decide) (by decide)⟩

/-- C10: the mixing loop, modelled as explicit state passing over the pair
of buffers, never writes the input buffer: after the whole loop the input
component is unchanged, and the output component is exactly the purely
functional accumulation `mixParts` of tiles into the freshly allocated
output. -/
theorem mixing_preserves_input (sr g : ℕ) (parts : List ℕ) (pos : ℕ) (s : MixState) :
    (mixPartsS sr g parts pos s).input = s.input ∧
    (mixPartsS sr g parts pos s).output =
      mixParts s.input.data s.input.rows sr g parts pos s.output :=
  ⟨mixPartsS_input sr g parts pos s, mixPartsS_output sr g parts pos s⟩

/-- C8 counterexample: a two-dimensional single-channel input of shape
`(2, 1)` does not keep its dimensionality: the squeeze at the end fires on
`n_channels == 1` regardless of the input's own `ndim`, so the output is
one-dimensional. -/
theorem squeeze_dims_counterexample :
    Audio.ndim (Audio.multi 2 1 (fun _ _ => 0)) = 2 ∧
    Option.map AudioOut.ndim
      (resOut (landauAudioLoop (Audio.multi 2 1 (fun _ _ => 0)) 1 none)) =
      some 1 := by
  refine ⟨rfl, ?_⟩
  have hn : nSeconds (Audio.multi 2 1 (fun _ _ => 0)) 1 = 2 := by decide
  have hl : landau 2 = (2, [2]) := by decide
  have hres : landauAudioLoop (Audio.multi 2 1 (fun _ _ => 0)) 1 none =
      .ok (squeezeOut (normalize
        (mixedOutput (toBuf (Audio.multi 2 1 (fun _ _ => 0))) 1 2 [2])), 2, [2]) := by
    simp only [landauAudioLoop, hn, hl]
  rw [hres]
  simp only [resOut, Option.map]
  have hz : ∀ u d,
      u < (mixedOutput (toBuf (Audio.multi 2 1 (fun _ _ => 0))) 1 2 [2]).rows →
      d < (mixedOutput (toBuf (Audio.multi 2 1 (fun _ _ => 0))) 1 2 [2]).cols →
      (mixedOutput (toBuf (Audio.multi 2 1 (fun _ _ => 0))) 1 2 [2]).data u d = 0 := by
    intro u d hu _
    show mixParts (toBuf (Audio.multi 2 1 (fun _ _ => 0))).data
      (toBuf (Audio.multi 2 1 (fun _ _ => 0))).rows 1 2 [2] 0 (fun _ _ => 0) u d = 0
    rw [mixParts_apply _ _ _ _ one_pos [2] 0 _ u d (by decide) (by decide)
      (by simpa using hu)]
    simp [segSum, toBuf]
  have hpk : peak (mixedOutput (toBuf (Audio.multi 2 1 (fun _ _ => 0))) 1 2 [2]) = 0 :=
    peak_zero_of_silent _ hz
  rw [normalize_of_peak_zero _ hpk, ndim_squeezeOut_one _ rfl]
  rfl

/-- C8 amended: a mono (1-D) input is processed as a single-channel
buffer, and the final squeeze fires exactly when the processed buffer has
one channel — for 1-D inputs and also for 2-D `(n, 1)` inputs — yielding a
1-D output (0-D in the degenerate single-sample case `g_n * sample_rate =
1`); an input with a channel count other than 1 yields a two-dimensional
output with the same channel count. -/
theorem squeeze_dims_amended (audio : Audio) (sr : ℕ) (popt : Option (List ℕ))
    (out : AudioOut) (g : ℕ) (ps : List ℕ)
    (h : landauAudioLoop audio sr popt = .ok (out, g, ps)) :
    (Audio.ndim audio = 1 → (toBuf audio).cols = 1) ∧
    ((toBuf audio).cols = 1 →
      AudioOut.ndim out = (if g * sr = 1 then 0 else 1) ∧
      AudioOut.channels out = 1) ∧
    ((toBuf audio).cols ≠ 1 →
      AudioOut.ndim out = 2 ∧ AudioOut.channels out = (toBuf audio).cols) := by
  have key : out = squeezeOut (normalize (mixedOutput (toBuf audio) sr g ps)) := by
    cases popt with
    | none =>
        simp only [landauAudioLoop] at h
        obtain ⟨h2, h34⟩ :
            squeezeOut (normalize (mixedOutput (toBuf audio) sr
              (landau (nSeconds audio sr)).1 (landau (nSeconds audio sr)).2)) = out ∧
            landau (nSeconds audio sr) = (g, ps) := by
          simpa using h
        rw [← h2, h34]
    | some partition =>
        simp only [landauAudioLoop] at h
        by_cases hcond : partition.sum ≠ nSeconds audio sr
        · rw [if_pos hcond] at h
          exact absurd h (by simp)
        · rw [if_neg hcond] at h
          obtain ⟨h2, h3, h4⟩ :
              squeezeOut (normalize (mixedOutput (toBuf audio) sr
                (lcm_list partition) partition)) = out ∧
              lcm_list partition = g ∧ partition = ps := by
            simpa using h
          rw [← h2, ← h3, ← h4]
  subst key
  refine ⟨?_, ?_, ?_⟩
  · intro hnd
    cases audio with
    | mono _ _ => rfl
    | multi _ _ _ => exact absurd hnd (by simp [Audio.ndim])
  · intro hcols
    have hc2 : (normalize (mixedOutput (toBuf audio) sr g ps)).cols = 1 := by
      rw [normalize_cols]; exact hcols
    constructor
    · rw [ndim_squeezeOut_one _ hc2, normalize_rows]
      rfl
    · exact channels_squeezeOut _ hc2
  · intro hcols
    have hc2 : ¬ (normalize (mixedOutput (toBuf audio) sr g ps)).cols = 1 := by
      rw [normalize_cols]; exact hcols
    rw [squeezeOut_of_cols_ne_one _ hc2]
    refine ⟨rfl, ?_⟩
    show (normalize (mixedOutput (toBuf audio) sr g ps)).cols = _
    rw [normalize_cols]
    rfl

/-- Witness for the amended C8: a stereo `(2, 2)` input keeps both its
dimensionality and its channel count. -/
theorem squeeze_dims_amended_witness :
    (¬ (toBuf (Audio.multi 2 2 (fun _ _ => 0))).cols = 1) ∧
    AudioOut.ndim (squeezeOut (normalize (mixedOutput
      (toBuf (Audio.multi 2 2 (fun _ _ => 0))) 1 (landau 2).1 (landau 2).2))) = 2 ∧
    AudioOut.channels (squeezeOut (normalize (mixedOutput
      (toBuf (Audio.multi 2 2 (fun _ _ => 0))) 1 (landau 2).1 (landau 2).2))) =
      (toBuf (Audio.multi 2 2 (fun _ _ => 0))).cols :=
  ⟨by decide,
    (squeeze_dims_amended (Audio.multi 2 2 (fun _ _ => 0)) 1 none _
      (landau 2).1 (landau 2).2 rfl).2.2 (by decide)⟩

end LandauSampler
